import Mathlib

/-!
# Verification of the jsonQuerry JSON parsing and querying engine

A shallow embedding, in Lean 4, of the jsonQuerry Go library
(`parser.go`, `value.go`): the lazy string/number decoder, the filter
evaluation engine, the query-grammar compiler and the `Keep`/`Get` tree
walks, together with theorems settling the frozen claims about this code.

Modelling conventions:
* Go strings are modelled as `List Char` at the rune level.  All source
  operations used here act on single-byte ASCII delimiters, and UTF-8
  preserves the lexicographic order of code points, so byte-level and
  rune-level views agree for every construct the theorems touch.
* Go `float64` values are modelled as exact rationals (`ℚ`).  IEEE-754
  rounding, hexadecimal float syntax, underscores and `Inf`/`NaN` forms
  are outside the model; the decimal-syntax acceptance/rejection of
  `strconv.ParseFloat` (the part the claims depend on) is modelled
  exactly, including the overflow-to-`ErrRange` cutoff.
* Go `int64` is modelled as `ℤ` with the explicit `±2^63` range checks
  where `strconv` performs them.
* Panics (nil-map indexing, out-of-range slice indexing, nil-pointer
  dereference) are modelled as `Option.none` of the surrounding
  computation; a Go `(result, error)` pair is `Option α × Option GoErr`.
-/

/-- Go error values: only their presence (`some`) versus `nil` (`none`)
and their message text matter to the claims. -/
abbrev GoErr := String

/-! ## Character-level helpers shared by the parser and the query engine -/

/-- The character class accepted by `parseRawNumber` in `parser.go`:
`0-9`, `-`, `.`, `e`, `E`, `+`. -/
def isNumChar (c : Char) : Bool :=
  ('0' ≤ c && c ≤ '9') || c = '-' || c = '.' || c = 'e' || c = 'E' || c = '+'

/-- ASCII decimal digit. -/
def isDigitChar (c : Char) : Bool := '0' ≤ c && c ≤ '9'

/-- ASCII hexadecimal digit (`strconv.ParseUint(_, 16, 16)` accepts
`0-9`, `a-f`, `A-F`). -/
def isHexChar (c : Char) : Bool :=
  ('0' ≤ c && c ≤ '9') || ('a' ≤ c && c ≤ 'f') || ('A' ≤ c && c ≤ 'F')

/-- Numeric value of a hexadecimal digit. -/
def hexVal (c : Char) : Nat :=
  if '0' ≤ c && c ≤ '9' then c.toNat - '0'.toNat
  else if 'a' ≤ c && c ≤ 'f' then c.toNat - 'a'.toNat + 10
  else if 'A' ≤ c && c ≤ 'F' then c.toNat - 'A'.toNat + 10
  else 0

/-- `strings.ToLower`, restricted to ASCII case mapping.  (Go performs
full Unicode simple case mapping; the non-ASCII part is outside this
model and outside every claim.) -/
def goToLower (s : List Char) : List Char :=
  s.map fun c => if 'A' ≤ c && c ≤ 'Z' then Char.ofNat (c.toNat + 32) else c

/-- `sub` occurs at the very start of `s`. -/
def listStartsWith : List Char → List Char → Bool
  | _, [] => true
  | [], _ :: _ => false
  | a :: s, b :: t => a = b && listStartsWith s t

/-- `strings.Contains(s, sub)`: `sub` occurs as a contiguous substring
of `s`. -/
def goContains : List Char → List Char → Bool
  | s, sub =>
    if listStartsWith s sub then true
    else
      match s with
      | [] => false
      | _ :: rest => goContains rest sub

/-- Go string comparison `a < b`: lexicographic byte order, which on
UTF-8 encodings coincides with lexicographic code-point order. -/
def goStrLt : List Char → List Char → Bool
  | [], [] => false
  | [], _ :: _ => true
  | _ :: _, [] => false
  | a :: xs, b :: ys => if a = b then goStrLt xs ys else decide (a < b)

/-- `strings.TrimLeft(s, quote)`: drop every leading `"` character. -/
def trimLeftQuotes (s : List Char) : List Char := s.dropWhile (· = '"')

/-- `strings.TrimRight(s, quote)`: drop every trailing `"` character. -/
def trimRightQuotes (s : List Char) : List Char :=
  (s.reverse.dropWhile (· = '"')).reverse

/-- `strings.Replace(s, quote, empty, -1)`: remove every `"` character. -/
def removeQuotes (s : List Char) : List Char := s.filter (· ≠ '"')

/-! ## The filter-evaluation engine (`parser.go`)

A compiled filter literal (and the decoded tree value it is compared
against) is a Go `interface{}` holding one of: `bool`, `int64`,
`float64`, `string`, `[]interface{}` or untyped `nil`.  `GoIface` is
that dynamic type. -/

inductive GoIface : Type where
  | b (x : Bool)
  | i (x : ℤ)
  | f (x : ℚ)
  | s (x : List Char)
  | list (xs : List GoIface)
  | nil

/-- `checkEq` (`parser.go`): the `===` comparison, dispatching on the
dynamic type of the filter literal `base`; `compared` is the decoded
tree value. -/
def checkEq : GoIface → GoIface → Bool
  | .b v, .b comp => comp = v
  | .b _, _ => false
  | .i v, .i comp => comp = v
  | .i v, .f comp => comp = (v : ℚ)
  | .i _, _ => false
  | .f v, .f comp => comp = v
  | .f v, .i comp => (comp : ℚ) = v
  | .f _, _ => false
  | .s v, .s comp => comp = v
  | .s _, _ => false
  | .list xs, comp => checkEqList xs comp
  | .nil, _ => false
where
  /-- the `[]interface{}` branch of `checkEq`: every element must
  satisfy `checkEq`. -/
  checkEqList : List GoIface → GoIface → Bool
    | [], _ => true
    | k :: rest, comp =>
      if checkEq k comp = false then false else checkEqList rest comp

/-- `checkPartialEq` (`parser.go`): the `==` comparison.  Identical to
`checkEq` except on strings, where it tests containment of the
quote-stripped literal inside the actual value, and on lists, where any
element satisfying `checkEq` suffices. -/
def checkPartialEq : GoIface → GoIface → Bool
  | .b v, .b comp => comp = v
  | .b _, _ => false
  | .i v, .i comp => comp = v
  | .i v, .f comp => comp = (v : ℚ)
  | .i _, _ => false
  | .f v, .f comp => comp = v
  | .f v, .i comp => (comp : ℚ) = v
  | .f _, _ => false
  | .s v, .s comp => goContains comp (removeQuotes v)
  | .s _, _ => false
  | .list xs, comp => goAnyEq xs comp
  | .nil, _ => false
where
  /-- the `[]interface{}` branch of `checkPartialEq`: some element
  satisfies `checkEq`. -/
  goAnyEq : List GoIface → GoIface → Bool
    | [], _ => false
    | k :: rest, comp =>
      if checkEq k comp = true then true else goAnyEq rest comp

/-- `checkDiff` (`parser.go`): the `!==` comparison. -/
def checkDiff : GoIface → GoIface → Bool
  | .b v, .b comp => comp ≠ v
  | .b _, _ => false
  | .i v, .i comp => if comp ≠ v then true else false
  | .i v, .f comp => comp ≠ (v : ℚ)
  | .i _, _ => false
  | .f v, .f comp => if comp ≠ v then true else false
  | .f v, .i comp => (comp : ℚ) ≠ v
  | .f _, _ => false
  | .s v, .s comp => comp ≠ v
  | .s _, _ => false
  | .list xs, comp => checkDiffList xs comp
  | .nil, _ => false
where
  /-- the `[]interface{}` branch of `checkDiff`, replicated exactly as
  written in the source: it returns `true` only when `checkDiff` is
  `false` on every element. -/
  checkDiffList : List GoIface → GoIface → Bool
    | [], _ => true
    | k :: rest, comp =>
      if checkDiff k comp ≠ false then false else checkDiffList rest comp

/-- `checkPartialDiff` (`parser.go`): the `!=` comparison. -/
def checkPartialDiff : GoIface → GoIface → Bool
  | .b v, .b comp => comp ≠ v
  | .b _, _ => false
  | .i v, .i comp => if comp ≠ v then true else false
  | .i v, .f comp => comp ≠ (v : ℚ)
  | .i _, _ => false
  | .f v, .f comp => if comp ≠ v then true else false
  | .f v, .i comp => (comp : ℚ) ≠ v
  | .f _, _ => false
  | .s v, .s comp => comp ≠ v
  | .s _, _ => false
  | .list xs, comp => goAnyNotDiff xs comp
  | .nil, _ => false
where
  /-- the `[]interface{}` branch of `checkPartialDiff`, exactly as in
  the source: `true` when some element fails `checkDiff`. -/
  goAnyNotDiff : List GoIface → GoIface → Bool
    | [], _ => false
    | k :: rest, comp =>
      if checkDiff k comp ≠ true then true else goAnyNotDiff rest comp

/-- `checkSup` (`parser.go`): the `>` comparison. -/
def checkSup : GoIface → GoIface → Bool
  | .b _, _ => false
  | .nil, _ => false
  | .i v, .i comp => comp > v
  | .i v, .f comp => comp > (v : ℚ)
  | .i _, _ => false
  | .f v, .f comp => comp > v
  | .f v, .i comp => (comp : ℚ) > v
  | .f _, _ => false
  | .s v, .s comp => goStrLt v comp
  | .s _, _ => false
  | .list xs, comp => checkSupList xs comp
where
  /-- the `[]interface{}` branch of `checkSup`: every element. -/
  checkSupList : List GoIface → GoIface → Bool
    | [], _ => true
    | k :: rest, comp =>
      if checkSup k comp = false then false else checkSupList rest comp

/-- `checkSupEq` (`parser.go`): the `>=` comparison.  Note the string
branch compares with strict `>` in the source. -/
def checkSupEq : GoIface → GoIface → Bool
  | .b _, _ => false
  | .nil, _ => false
  | .i v, .i comp => comp ≥ v
  | .i v, .f comp => comp ≥ (v : ℚ)
  | .i _, _ => false
  | .f v, .f comp => comp ≥ v
  | .f v, .i comp => (comp : ℚ) ≥ v
  | .f _, _ => false
  | .s v, .s comp => goStrLt v comp
  | .s _, _ => false
  | .list xs, comp => checkSupEqList xs comp
where
  /-- the `[]interface{}` branch of `checkSupEq`: some element. -/
  checkSupEqList : List GoIface → GoIface → Bool
    | [], _ => false
    | k :: rest, comp =>
      if checkSupEq k comp = true then true else checkSupEqList rest comp

/-- `checkInf` (`parser.go`): the `<` comparison.  Its list branch
calls `checkSup`, exactly as the source does. -/
def checkInf : GoIface → GoIface → Bool
  | .b _, _ => false
  | .nil, _ => false
  | .i v, .i comp => comp < v
  | .i v, .f comp => comp < (v : ℚ)
  | .i _, _ => false
  | .f v, .f comp => comp < v
  | .f v, .i comp => (comp : ℚ) < v
  | .f _, _ => false
  | .s v, .s comp => goStrLt comp v
  | .s _, _ => false
  | .list xs, comp => checkInfList xs comp
where
  /-- the `[]interface{}` branch of `checkInf`, which (as written in
  the source) tests `checkSup` on every element. -/
  checkInfList : List GoIface → GoIface → Bool
    | [], _ => true
    | k :: rest, comp =>
      if checkSup k comp = false then false else checkInfList rest comp

/-- `checkInfEq` (`parser.go`): the `<=` comparison.  Note the string
branch tests `v < comp` (i.e. strictly greater actual) in the source. -/
def checkInfEq : GoIface → GoIface → Bool
  | .b _, _ => false
  | .nil, _ => false
  | .i v, .i comp => comp ≤ v
  | .i v, .f comp => comp ≤ (v : ℚ)
  | .i _, _ => false
  | .f v, .f comp => comp ≤ v
  | .f v, .i comp => (comp : ℚ) ≤ v
  | .f _, _ => false
  | .s v, .s comp => goStrLt v comp
  | .s _, _ => false
  | .list xs, comp => checkInfEqList xs comp
where
  /-- the `[]interface{}` branch of `checkInfEq`: some element. -/
  checkInfEqList : List GoIface → GoIface → Bool
    | [], _ => false
    | k :: rest, comp =>
      if checkInfEq k comp = true then true else checkInfEqList rest comp

/-- `checkContain` (`parser.go`): the `:` comparison.  Both sides must
be strings; the source lower-cases both, trims every leading/trailing
quote from `base` (the filter literal), and tests whether the actual
value occurs inside the trimmed literal. -/
def checkContain : GoIface → GoIface → Bool
  | .s b, .s c =>
    goContains (trimRightQuotes (trimLeftQuotes (goToLower b))) (goToLower c)
  | _, _ => false

/-- `checkNotContain` (`parser.go`): the `!:` comparison; negation of
the containment test, still `false` when either side is not a string. -/
def checkNotContain : GoIface → GoIface → Bool
  | .s b, .s c =>
    !goContains (trimRightQuotes (trimLeftQuotes (goToLower b))) (goToLower c)
  | _, _ => false

/-! ## `strconv` number parsing, modelled over exact rationals -/

/-- Digits-to-natural accumulator for decimal parsing. -/
def digitsToNat (s : List Char) : Nat :=
  s.foldl (fun acc c => acc * 10 + (c.toNat - '0'.toNat)) 0

/-- `strconv.ParseInt(s, 10, 64)`, modelled exactly: optional sign,
a nonempty run of decimal digits covering the whole string, and the
signed 64-bit range check (`strconv` reports `ErrRange` outside it,
which callers here treat as failure). -/
def goParseInt (s : List Char) : Option ℤ :=
  let (neg, digits) :=
    match s with
    | '-' :: rest => (true, rest)
    | '+' :: rest => (false, rest)
    | rest => (false, rest)
  if digits = [] then none
  else if digits.all isDigitChar then
    let n : ℤ := (digitsToNat digits : ℤ)
    let v : ℤ := if neg then -n else n
    if -(2 ^ 63) ≤ v ∧ v < 2 ^ 63 then some v else none
  else none

/-- `strconv.Atoi(s)`: identical grammar and range behaviour to
`ParseInt(s, 10, 64)` on a 64-bit platform. -/
def goAtoi (s : List Char) : Option ℤ := goParseInt s

/-- `strconv.ParseFloat(s, 64)`, modelled over exact rationals:
optional sign, decimal mantissa (`digits`, `digits.`, `digits.digits`
or `.digits`), optional exponent part, covering the whole string.
The decimal value is kept exactly (IEEE-754 rounding is outside the
model).  A value at or beyond the IEEE round-to-even overflow cutoff
`2^1024 - 2^970` makes Go return `ErrRange`, which every caller in
this repository treats as failure, so it is `none` here.  Hexadecimal
floats, underscores and `Inf`/`NaN` forms cannot occur in the lexemes
this repository feeds to `ParseFloat` and are outside the model. -/
def goParseFloat (s : List Char) : Option ℚ :=
  let (sign, s1) :=
    match s with
    | '-' :: rest => ((-1 : ℚ), rest)
    | '+' :: rest => ((1 : ℚ), rest)
    | rest => ((1 : ℚ), rest)
  let intDigits := s1.takeWhile isDigitChar
  let s2 := s1.dropWhile isDigitChar
  let mantissa? : Option (ℚ × List Char) :=
    match s2 with
    | '.' :: s3 =>
      let fracDigits := s3.takeWhile isDigitChar
      let s4 := s3.dropWhile isDigitChar
      if intDigits = [] ∧ fracDigits = [] then none
      else
        some ((digitsToNat intDigits : ℚ) +
          (digitsToNat fracDigits : ℚ) / ((10 : ℚ) ^ fracDigits.length), s4)
    | _ =>
      if intDigits = [] then none
      else some ((digitsToNat intDigits : ℚ), s2)
  match mantissa? with
  | none => none
  | some (m, rest) =>
    let withExp? : Option ℚ :=
      match rest with
      | 'e' :: r1 =>
        match goParseExp r1 with
        | none => none
        | some e => some (m * (10 : ℚ) ^ e)
      | 'E' :: r1 =>
        match goParseExp r1 with
        | none => none
        | some e => some (m * (10 : ℚ) ^ e)
      | [] => some m
      | _ => none
    match withExp? with
    | none => none
    | some v =>
      let signed := sign * v
      if |signed| ≥ (2 : ℚ) ^ 1024 - (2 : ℚ) ^ 970 then none else some signed
where
  /-- exponent part after `e`/`E`: optional sign then a nonempty digit
  run covering the remainder. -/
  goParseExp (r : List Char) : Option ℤ :=
    let (eneg, digits) :=
      match r with
      | '-' :: rest => (true, rest)
      | '+' :: rest => (false, rest)
      | rest => (false, rest)
    if digits = [] then none
    else if digits.all isDigitChar then
      some (if eneg then -(digitsToNat digits : ℤ) else (digitsToNat digits : ℤ))
    else none

/-! ## `unescapeStringBestEffort` and `parseRawNumber` (`parser.go`) -/

/-- `strings.IndexByte(s, backslash)`: index of the first backslash. -/
def idxBackslash (s : List Char) : Option Nat :=
  s.findIdx? (· = '\\')

/-- Go's conversion `string(rune(x))` for `x ≤ 0xFFFF`: a valid
Unicode scalar value encodes as itself; a UTF-16 surrogate half
(0xD800–0xDFFF) is replaced by U+FFFD. -/
def goRuneToString (x : Nat) : List Char :=
  if 0xD800 ≤ x ∧ x ≤ 0xDFFF then [Char.ofNat 0xFFFD] else [Char.ofNat x]

/-- The `\uXXXX` sub-case of the escape step (`case 'u'` in the
source): present exactly when at least four characters remain and all
four are hex digits; gives the decoded run (`string(rune(x))`) and the
input advanced past the digits. -/
def uEscStep : List Char → Option (List Char × List Char)
  | a :: b :: c :: d :: rest =>
    if isHexChar a && isHexChar b && isHexChar c && isHexChar d then
      some (goRuneToString
        (((hexVal a * 16 + hexVal b) * 16 + hexVal c) * 16 + hexVal d), rest)
    else none
  | _ => none

/-- One escape step of `unescapeStringBestEffort`: `ch` is the
character following a backslash, `s` the remainder after `ch`.
Returns the decoded output and the remaining input (advanced past the
four hex digits only for a well-formed `\uXXXX`). -/
def escStep (ch : Char) (s : List Char) : List Char × List Char :=
  if ch = '"' then (['"'], s)
  else if ch = '\\' then (['\\'], s)
  else if ch = '/' then (['/'], s)
  else if ch = 'b' then ([Char.ofNat 8], s)
  else if ch = 'f' then ([Char.ofNat 12], s)
  else if ch = 'n' then ([Char.ofNat 10], s)
  else if ch = 'r' then ([Char.ofNat 13], s)
  else if ch = 't' then ([Char.ofNat 9], s)
  else if ch = 'u' then
    match uEscStep s with
    | some p => p
    | none => (['\\', ch], s)
  else (['\\', ch], s)

/-- A well-formed `\uXXXX` consumes its four digits (source side). -/
theorem uEscStep_len {r : List Char} {p : List Char × List Char}
    (h : uEscStep r = some p) : p.2.length ≤ r.length := by
  cases r with
  | nil => simp [uEscStep] at h
  | cons a r1 =>
    cases r1 with
    | nil => simp [uEscStep] at h
    | cons b2 r2 =>
      cases r2 with
      | nil => simp [uEscStep] at h
      | cons c2 r3 =>
        cases r3 with
        | nil => simp [uEscStep] at h
        | cons d tl =>
          obtain ⟨p1, p2⟩ := p
          by_cases hx : (isHexChar a && isHexChar b2 && isHexChar c2 && isHexChar d) = true
          · simp only [uEscStep, hx, if_true, Option.some.injEq, Prod.mk.injEq] at h
            obtain ⟨h1, h2⟩ := h
            subst h2
            simp only [List.length_cons]
            omega
          · simp [uEscStep, hx] at h

/-- An escape step never lengthens the remaining input. -/
theorem escStep_len (ch : Char) (s : List Char) :
    (escStep ch s).2.length ≤ s.length := by
  unfold escStep
  repeat' split
  all_goals try simp_all
  rename_i p h
  exact uEscStep_len h

/-- The slow-path loop of `unescapeStringBestEffort`, entered with the
input positioned just after a backslash. -/
def unescLoop : List Char → List Char
  | [] => []
  | c0 :: tl =>
    let p := escStep c0 tl
    match idxBackslash p.2 with
    | none => p.1 ++ p.2
    | some n => p.1 ++ p.2.take n ++ unescLoop (p.2.drop (n + 1))
termination_by l => List.length l + 1
decreasing_by
  rename_i c1
  have hle := escStep_len c1 rest
  simp only [List.length_drop, List.length_cons]
  omega

/-- `unescapeStringBestEffort` (`parser.go`): decode the escape
sequences of a raw string span in a single pass, copying malformed
sequences through verbatim. -/
def unescapeStringBestEffort (s : List Char) : List Char :=
  match idxBackslash s with
  | none => s
  | some n => s.take n ++ unescLoop (s.drop (n + 1))

/-- `parseRawNumber` (`parser.go`): scan the maximal run of number
characters; an empty run is a hard error.  Result is
`(lexeme, tail, error)` exactly as the Go triple. -/
def parseRawNumber (s : List Char) : List Char × List Char × Option GoErr :=
  match s.findIdx? (fun c => !isNumChar c) with
  | some i =>
    if i = 0 then ([], s, some "unexpected char")
    else (s.take i, s.drop i, none)
  | none => (s, [], none)

/-! ## The value tree (`value.go`)

A `Value` is a tagged union; the two `Raw*` tags exist between parse
time and the first call to `Type`, which decodes them in place.  The
in-place mutation is modelled functionally: `goType` returns both the
tag and the updated node. -/

inductive GoVal : Type where
  | vNull
  | vTrue
  | vFalse
  | rawString (sp : List Char)
  | vString (sp : List Char)
  | rawNumber (sp : List Char)
  | number (n : ℚ)
  | array (elems : List GoVal)
  | object (kvs : List (List Char × GoVal))

/-- The `Type` tags of `value.go` (including the internal-only
`typeRawString`/`typeRawNumber`, which `Type()` never returns). -/
inductive GoType : Type where
  | tNull | tObject | tArray | tString | tNumber | tTrue | tFalse
  | tRawString | tRawNumber
deriving DecidableEq

/-- `Value.Type` (`value.go`): decode-on-first-read.  A raw string is
unescaped and its tag advanced to `TypeString`; a raw number is parsed
as a float (zero on failure) and its tag advanced to `TypeNumber`; all
other tags are returned unchanged.  The pair is (returned tag, node
after the call). -/
def goType : GoVal → GoType × GoVal
  | .rawString sp => (.tString, .vString (unescapeStringBestEffort sp))
  | .rawNumber sp =>
    (.tNumber, .number (match goParseFloat sp with | none => 0 | some q => q))
  | .vNull => (.tNull, .vNull)
  | .vTrue => (.tTrue, .vTrue)
  | .vFalse => (.tFalse, .vFalse)
  | .vString sp => (.tString, .vString sp)
  | .number n => (.tNumber, .number n)
  | .array elems => (.tArray, .array elems)
  | .object kvs => (.tObject, .object kvs)

/-- The raw tag of a node as stored in the `t` field (what `Value.Get`
switches on, without decoding). -/
def storedTag : GoVal → GoType
  | .vNull => .tNull
  | .vTrue => .tTrue
  | .vFalse => .tFalse
  | .rawString _ => .tRawString
  | .vString _ => .tString
  | .rawNumber _ => .tRawNumber
  | .number _ => .tNumber
  | .array _ => .tArray
  | .object _ => .tObject

/-- Modelled from the spec: `Object.Get` (declared in this repository
but not under `src/`) — "lookup by key returns the first match in
insertion order", `nil` when the key is absent. -/
def objectGet : List (List Char × GoVal) → List Char → Option GoVal
  | [], _ => none
  | (k, v) :: rest, key => if k = key then some v else objectGet rest key

/-- `Value.Get` (`value.go`): walk a key path.  A `nil` receiver, a
missing object key, an array key that does not parse as a decimal
integer or is out of range, or a non-container node with keys left all
yield `nil`; the node addressed by the path otherwise.  The source
switches on the stored tag `v.t` without decoding. -/
def goGet : Option GoVal → List (List Char) → Option GoVal
  | none, _ => none
  | some v, [] => some v
  | some v, key :: rest =>
    match v with
    | .object kvs =>
      match objectGet kvs key with
      | none => none
      | some v' => goGet (some v') rest
    | .array elems =>
      match goAtoi key with
      | none => none
      | some n =>
        if n < 0 ∨ n ≥ (elems.length : ℤ) then none
        else goGet (some (elems.getD n.toNat .vNull)) rest
    | _ => none

/-! ## `splitComa` (`parser.go`) and the `Keep` projection (`value.go`) -/

/-- Worker for `splitComa`: `depth` is the brace-nesting counter,
`cur` the (reversed) run since the last depth-zero comma. -/
def splitComaAux : List Char → ℤ → List Char → List (List Char)
  | [], _, cur => if cur.isEmpty then [] else [cur.reverse]
  | c :: rest, depth, cur =>
    if c = '{' then splitComaAux rest (depth + 1) (c :: cur)
    else if c = '}' then splitComaAux rest (depth - 1) (c :: cur)
    else if c = ',' then
      if depth = 0 then cur.reverse :: splitComaAux rest depth []
      else splitComaAux rest depth (c :: cur)
    else splitComaAux rest depth (c :: cur)

/-- `splitComa` (`parser.go`): split on commas at brace depth zero;
a run between two depth-zero commas is one chunk (empty runs between
two commas included); a trailing empty run is not appended. -/
def splitComa (line : List Char) : List (List Char) := splitComaAux line 0 []

/-- Lowercase hexadecimal digit character. -/
def hexDigitChar (n : Nat) : Char :=
  if n < 10 then Char.ofNat ('0'.toNat + n) else Char.ofNat ('a'.toNat + n - 10)

/-- `fmt.Sprintf` with `%q` (i.e. `strconv.Quote`) for one character,
modelled exactly on ASCII.  (Go additionally escapes non-printable
non-ASCII runes, which no claim touches; those are kept literal
here.) -/
def goQuoteChar (c : Char) : List Char :=
  if c = '"' then ['\\', '"']
  else if c = '\\' then ['\\', '\\']
  else if c.toNat = 7 then ['\\', 'a']
  else if c.toNat = 8 then ['\\', 'b']
  else if c.toNat = 12 then ['\\', 'f']
  else if c.toNat = 10 then ['\\', 'n']
  else if c.toNat = 13 then ['\\', 'r']
  else if c.toNat = 9 then ['\\', 't']
  else if c.toNat = 11 then ['\\', 'v']
  else if c.toNat < 0x20 then
    ['\\', 'x', hexDigitChar (c.toNat / 16), hexDigitChar (c.toNat % 16)]
  else [c]

/-- `Value.String()` on a `TypeString` node: the `%q`-quoted form. -/
def goQuoteString (s : List Char) : List Char :=
  '"' :: (s.flatMap goQuoteChar) ++ ['"']

/-- The generic nested result produced by `Keep`: Go
`interface{}` values built from `map[string]interface{}`,
`[]interface{}` and scalars.  A Go `nil` result is the `none` of the
surrounding `Option`, so maps and sequences store `Option KeepVal`.
The unordered Go map is modelled as an insertion-ordered
update-or-append association list. -/
inductive KeepVal : Type where
  | kBool (b : Bool)
  | kNum (q : ℚ)
  | kStr (s : List Char)
  | kArr (xs : List (Option KeepVal))
  | kObj (kvs : List (List Char × Option KeepVal))

/-- Update-or-append for the modelled `map[string]interface{}`. -/
def mapPut (kvs : List (List Char × Option KeepVal)) (key : List Char)
    (v : Option KeepVal) : List (List Char × Option KeepVal) :=
  match kvs with
  | [] => [(key, v)]
  | (k, w) :: rest =>
    if k = key then (k, v) :: rest else (k, w) :: mapPut rest key v

/-- Modelled from the spec: `GetKeys` (declared in this repository but
not under `src/`) splits a textual keep request into the plain field
names to copy through ("stays") and the nested sub-requests
("conts").  Following §4.6 and the request syntax
`{a,b,c{...}}` suggested by the source comments: one outer layer of
braces is removed if present, the interior is split at depth-zero
commas (via the repository's own brace-aware splitter), empty chunks
are dropped, and a chunk containing `{` or `:` is a sub-request while
any other chunk is a plain field name. -/
def GetKeys (request : List Char) : List (List Char) × List (List Char) :=
  let inner :=
    match request with
    | '{' :: rest => if rest.getLast? = some '}' then rest.dropLast else request
    | _ => request
  let chunks := (splitComa inner).filter (fun c => !c.isEmpty)
  (chunks.filter fun c => !(c.contains '{' || c.contains ':'),
   chunks.filter fun c => c.contains '{' || c.contains ':')

/-- Modelled from the spec: `splitBraces` (declared in this repository
but not under `src/`) extracts the brace-delimited sub-request of a
"cont" chunk: the interior of the first balanced `{...}` group, as a
one-element list, or the empty list when the chunk has no brace
group. -/
def splitBraces (s : List Char) : List (List Char) :=
  match s.dropWhile (· ≠ '{') with
  | '{' :: rest => [bracesInterior rest 0 []]
  | _ => []
where
  /-- interior of a brace group: accumulate until the matching `}`. -/
  bracesInterior : List Char → ℤ → List Char → List Char
    | [], _, acc => acc.reverse
    | c :: rest, depth, acc =>
      if c = '}' then
        if depth = 0 then acc.reverse else bracesInterior rest (depth - 1) (c :: acc)
      else if c = '{' then bracesInterior rest (depth + 1) (c :: acc)
      else bracesInterior rest depth (c :: acc)

mutual

/-- `Value.Keep` (`value.go`), fuel-indexed (the fuel only bounds
recursion depth; every claim is settled at inputs whose depth it
covers).  The receiver is `Option GoVal` because Go invokes `Keep` on
possibly-nil `*Value` pointers, whose `v.Type()` then faults (`none`
of the outer `Option`).  The result pair is Go's
`(interface{}, error)`. -/
def keepFuel : Nat → Option GoVal → List Char → Option (Option KeepVal × Option GoErr)
  | 0, _, _ => none
  | _ + 1, none, _ => none
  | fuel + 1, some v, request =>
    match (goType v).2 with
    | .array elems =>
      match keepArr fuel elems request with
      | none => none
      | some (.inl r) => some r
      | some (.inr xs) => some (some (.kArr xs), none)
    | .object kvs =>
      let sc := GetKeys request
      match keepStays fuel kvs sc.1 [] with
      | none => none
      | some (.inl r) => some r
      | some (.inr acc) =>
        match keepConts fuel kvs sc.2 acc with
        | none => none
        | some (.inl r) => some r
        | some (.inr acc') => some (some (.kObj acc'), none)
    | .vString sp => some (some (.kStr (goQuoteString sp)), none)
    | .number q => some (some (.kNum q), none)
    | .vFalse => some (some (.kBool false), none)
    | .vTrue => some (some (.kBool true), none)
    | _ => some (none, some "Type not recognized")
termination_by fuel _ _ => (fuel, 0)

/-- The `TypeArray` loop of `Keep`: element-wise recursion, aborting
with the element's `(nil, err)` pair on error. -/
def keepArr : Nat → List GoVal → List Char →
    Option ((Option KeepVal × Option GoErr) ⊕ List (Option KeepVal))
  | _, [], _ => some (.inr [])
  | fuel, u :: rest, request =>
    match keepFuel fuel (some u) request with
    | none => none
    | some (_, some e) => some (.inl (none, some e))
    | some (nv, none) =>
      match keepArr fuel rest request with
      | none => none
      | some (.inl r) => some (.inl r)
      | some (.inr xs) => some (.inr (nv :: xs))
termination_by fuel l _ => (fuel, l.length + 1)

/-- The "stays" loop of `Keep` on an object: each plain key is looked
up; an absent key makes the source execute `return nil, err` at a
point where `err` is still `nil`. -/
def keepStays : Nat → List (List Char × GoVal) → List (List Char) →
    List (List Char × Option KeepVal) →
    Option ((Option KeepVal × Option GoErr) ⊕ List (List Char × Option KeepVal))
  | _, _, [], acc => some (.inr acc)
  | fuel, kvs, stay :: rest, acc =>
    match objectGet kvs stay with
    | none => some (.inl (none, none))
    | some next =>
      match keepFuel fuel (some next) [] with
      | none => none
      | some (_, some e) => some (.inl (none, some e))
      | some (nv, none) => keepStays fuel kvs rest (mapPut acc stay nv)
termination_by fuel _ l _ => (fuel, l.length + 1)

/-- The "conts" loop of `Keep` on an object: each sub-request chunk is
split into its key and its brace interior; `splitBraces`'s first
element is indexed unconditionally (panic when absent) and the value
looked up by `Object.Get` may be a nil pointer handed straight to
`Keep` (panic inside `Type`). -/
def keepConts : Nat → List (List Char × GoVal) → List (List Char) →
    List (List Char × Option KeepVal) →
    Option ((Option KeepVal × Option GoErr) ⊕ List (List Char × Option KeepVal))
  | _, _, [], acc => some (.inr acc)
  | fuel, kvs, cont :: rest, acc =>
    let key := cont.takeWhile (· ≠ ':')
    match (splitBraces cont).head? with
    | none => none
    | some v0 =>
      match keepFuel fuel (objectGet kvs key) v0 with
      | none => none
      | some (_, some e) => some (.inl (none, some e))
      | some (nv, none) => keepConts fuel kvs rest (mapPut acc key nv)
termination_by fuel _ l _ => (fuel, l.length + 1)

end

/-! ## The query-grammar compiler (`parser.go`)

`cmdRegex` and `filterRegex` are fixed RE2 patterns; each is modelled
by a bespoke matcher implementing its leftmost-first (Perl-preference)
semantics for that exact pattern: greedy runs whose following token is
disjoint from the run's character class are forced-maximal, the
alternation in the filter value prefers the unquoted branch, the
quoted branch's greedy body backtracks to the last quote available,
and the operator run backtracks one character at a time when the value
fails to match. -/

/-- The 12 filter operations plus the sentinel produced for an
unrecognized operator token. -/
inductive Operation : Type where
  | eq | partialEq | diff | partialDiff | sup | supEq | inf | infEq
  | contain | notContain | like | notLike | opError
deriving DecidableEq

/-- `findOperation` (`parser.go`): operator token to `Operation`;
anything unrecognized becomes the `"error"` sentinel. -/
def findOperation (line : List Char) : Operation :=
  if line = "===".toList then .eq
  else if line = "==".toList then .partialEq
  else if line = "!==".toList then .diff
  else if line = "!=".toList then .partialDiff
  else if line = ">".toList then .sup
  else if line = ">=".toList then .supEq
  else if line = "<".toList then .inf
  else if line = "<=".toList then .infEq
  else if line = ":".toList then .contain
  else if line = "!:".toList then .notContain
  else if line = "::".toList then .like
  else if line = "!::".toList then .notLike
  else .opError

/-- `typed` (`parser.go`): classify a filter literal token as boolean,
null, signed 64-bit integer, 64-bit float, else raw string (quotes
included). -/
def typed (v : List Char) : GoIface :=
  if v = "true".toList then .b true
  else if v = "false".toList then .b false
  else if v = "null".toList then .nil
  else
    match goParseInt v with
    | some n => .i n
    | none =>
      match goParseFloat v with
      | some q => .f q
      | none => .s v

/-- `Filter` (`parser.go`): one compiled `key op literal` clause. -/
structure GoFilter : Type where
  key : List Char
  op : Operation
  val : GoIface

/-- `filterRegex` key class `[a-zA-Z_-]`. -/
def isKeyChar (c : Char) : Bool :=
  ('a' ≤ c && c ≤ 'z') || ('A' ≤ c && c ≤ 'Z') || c = '_' || c = '-'

/-- `filterRegex` operator class `[><!:=]`. -/
def isOpChar (c : Char) : Bool :=
  c = '>' || c = '<' || c = '!' || c = ':' || c = '='

/-- RE2 `\s`: space, tab, newline, form feed, carriage return. -/
def isGoWS (c : Char) : Bool :=
  c = ' ' || c = '\t' || c = '\n' || c.toNat = 12 || c.toNat = 13

/-- `filterRegex` unquoted value class `[^&\(\)\{}\s\")]`. -/
def isVal1Char (c : Char) : Bool :=
  !(c = '&' || c = '(' || c = ')' || c = '{' || c = '}' || c = '"' || isGoWS c)

/-- `filterRegex` quoted value body class `[^&\(\)\{}]`. -/
def isQBodyChar (c : Char) : Bool :=
  !(c = '&' || c = '(' || c = ')' || c = '{' || c = '}')

/-- One submatch of `filterRegex`: the three capture groups. -/
structure FilterMatch : Type where
  key : List Char
  op : List Char
  val : List Char

/-- The value alternation of `filterRegex` at position `q`: unquoted
branch preferred; quoted branch takes the greedy body up to the last
reachable quote.  Returns the captured value text and the remaining
input. -/
def matchVal (q : List Char) : Option (List Char × List Char) :=
  match q with
  | '"' :: qt =>
    let run := qt.takeWhile isQBodyChar
    match lastQuote run with
    | none => none
    | some j => some ('"' :: run.take j ++ ['"'], qt.drop (j + 1))
  | _ =>
    let run := q.takeWhile isVal1Char
    if run.isEmpty then none else some (run, q.drop run.length)
where
  /-- greatest index of a `"` in the run, if any. -/
  lastQuote (run : List Char) : Option Nat :=
    match run.reverse.findIdx? (· = '"') with
    | none => none
    | some r => some (run.length - 1 - r)

/-- The operator/value tail of one `filterRegex` repetition: try the
greedy operator run first, giving back one operator character at a
time until the value matches. -/
def tryOp (r1 : List Char) : Nat → Option (List Char × List Char × List Char)
  | 0 => none
  | k + 1 =>
    match matchVal ((r1.drop (k + 1)).dropWhile isGoWS) with
    | some (val, rest) => some (r1.take (k + 1), val, rest)
    | none => tryOp r1 k

/-- One repetition of `filterRegex`'s repeated group at the start of
`s`: key run, whitespace, operator run, whitespace, value, trailing
whitespace. -/
def matchXAt (s : List Char) : Option (FilterMatch × List Char) :=
  let key := s.takeWhile isKeyChar
  if key.isEmpty then none
  else
    let r1 := (s.dropWhile isKeyChar).dropWhile isGoWS
    let opMax := r1.takeWhile isOpChar
    if opMax.isEmpty then none
    else
      match tryOp r1 opMax.length with
      | none => none
      | some (op, val, rest) =>
        some (⟨key, op, val⟩, rest.dropWhile isGoWS)

/-- Leftmost start of a `filterRegex` match: the first suffix at which
one repetition matches. -/
def findFirstX : List Char → Option (FilterMatch × List Char)
  | [] => matchXAt []
  | c :: t =>
    match matchXAt (c :: t) with
    | some r => some r
    | none => findFirstX t

/-- Greedy repetition of the matched group; the capture groups of the
last repetition survive, exactly as RE2 reports captures inside
`(?:...)+`. -/
def repeatX (fuel : Nat) (m : FilterMatch) (rest : List Char) :
    FilterMatch × List Char :=
  match fuel with
  | 0 => (m, rest)
  | f + 1 =>
    match matchXAt rest with
    | none => (m, rest)
    | some (m', rest') => repeatX f m' rest'

/-- `filterRegex.FindAllStringSubmatch(s, -1)`: successive
non-overlapping leftmost matches, each reported through the captures
of its last repetition. -/
def filterFindAll (fuel : Nat) (s : List Char) : List FilterMatch :=
  match fuel with
  | 0 => []
  | f + 1 =>
    match findFirstX s with
    | none => []
    | some (m, rest0) =>
      let r := repeatX rest0.length m rest0
      r.1 :: filterFindAll f r.2

/-- `newFilter` (`parser.go`): all `filterRegex` submatches whose
three captures are nonempty, compiled to `Filter` values in order. -/
def newFilter (cmd : List Char) : List GoFilter :=
  (filterFindAll (cmd.length + 1) cmd).filterMap fun m =>
    if m.key.length > 0 ∧ m.op.length > 0 ∧ m.val.length > 0 then
      some ⟨m.key, findOperation m.op, typed m.val⟩
    else none

/-- `cmdRegex` name class `[a-z_]`. -/
def isCmdNameChar (c : Char) : Bool := ('a' ≤ c && c ≤ 'z') || c = '_'

/-- `cmdRegex` parenthesized-body class `[^{\}\)\(]`. -/
def isParenBodyChar (c : Char) : Bool :=
  !(c = '{' || c = '}' || c = '(' || c = ')')

/-- The `{(.*)}$` tail of `cmdRegex`: the remainder must end in `}`,
and `.` does not match a newline, so the interior must be
newline-free. -/
def cmdTail (name filt r3 : List Char) :
    Option (List Char × List Char × List Char) :=
  match r3.getLast? with
  | some '}' =>
    if r3.dropLast.contains '\n' then none else some (name, filt, r3.dropLast)
  | _ => none

/-- `cmdRegex.FindStringSubmatch`: the anchored pattern
`^([a-z_]+)?(?:\(([^ .. ]*)\))?` then `(.*)` in braces, modelled
directly (each greedy run is forced because the following literal is
outside its class).  `none` is a failed match (Go returns a nil
slice). -/
def cmdMatch (s : List Char) : Option (List Char × List Char × List Char) :=
  let name := s.takeWhile isCmdNameChar
  let r1 := s.dropWhile isCmdNameChar
  match r1 with
  | '(' :: r2 =>
    let filt := r2.takeWhile isParenBodyChar
    (match r2.dropWhile isParenBodyChar with
     | ')' :: '{' :: r3 => cmdTail name filt r3
     | _ => none)
  | '{' :: r3 => cmdTail name [] r3
  | _ => none

/-- `Level` (`parser.go`): one nesting level of a compiled query. -/
inductive GoLevel : Type where
  | mk (filters : List GoFilter) (next : List (List Char × GoLevel))
       (retrieve : List (List Char))

/-- The `filters` field of a `Level`. -/
def GoLevel.filters : GoLevel → List GoFilter
  | .mk fs _ _ => fs

/-- The `next` child map of a `Level` (Go map modelled as an
update-or-append association list). -/
def GoLevel.next : GoLevel → List (List Char × GoLevel)
  | .mk _ nx _ => nx

/-- The `retrieve` field of a `Level`. -/
def GoLevel.retrieve : GoLevel → List (List Char)
  | .mk _ _ rt => rt

/-- Assignment `lvl.next[name] = child` on the modelled map. -/
def insertNext : List (List Char × GoLevel) → List Char → GoLevel →
    List (List Char × GoLevel)
  | [], name, child => [(name, child)]
  | (k, v) :: rest, name, child =>
    if k = name then (k, child) :: rest else (k, v) :: insertNext rest name child

mutual

/-- `parseQuery` (`parser.go`), fuel-indexed.  The source indexes
`matches[2]` immediately after `FindStringSubmatch`, so a
non-matching command faults (index out of range on a nil slice):
`none` here.  Every successful return carries a `nil` error, as the
single `return` statement of the source does. -/
def parseQueryFuel : Nat → List Char → Option (GoLevel × List Char × Option GoErr)
  | 0, _ => none
  | fuel + 1, cmd =>
    match cmdMatch cmd with
    | none => none
    | some (name, filt, body) =>
      let filters := if filt.length > 0 then newFilter filt else []
      let lvl0 : GoLevel := .mk filters [] []
      match addChildren fuel (if body.length > 0 then splitComa body else []) lvl0 with
      | none => none
      | some lvl => some (lvl, name, none)
termination_by fuel _ => (fuel, 0)

/-- The children loop of `parseQuery`: a chunk containing any of
`(){}` is compiled recursively (its own error discarded) and stored
under its name; other chunks are appended to `retrieve`. -/
def addChildren : Nat → List (List Char) → GoLevel → Option GoLevel
  | _, [], lvl => some lvl
  | fuel, attr :: rest, lvl =>
    if attr.any (fun c => c = '(' || c = ')' || c = '{' || c = '}') then
      match parseQueryFuel fuel attr with
      | none => none
      | some (child, childName, _) =>
        addChildren fuel rest
          (.mk lvl.filters (insertNext lvl.next childName child) lvl.retrieve)
    else
      addChildren fuel rest (.mk lvl.filters lvl.next (lvl.retrieve ++ [attr]))
termination_by fuel l _ => (fuel, l.length + 1)

end

/-- `ParseQuery` (`parser.go`): `parseQuery` with the level name
dropped; the error result is whatever `parseQuery` produced (always
`nil`). -/
def ParseQueryFuel (fuel : Nat) (cmd : List Char) :
    Option (GoLevel × Option GoErr) :=
  match parseQueryFuel fuel cmd with
  | none => none
  | some (lvl, _, e) => some (lvl, e)

/-! ## Spec-side definitions

These definitions follow the wording of the specification's claims
(not the source); each is compared against the corresponding source
embedding above. -/

/-- Is this dynamic value a string? -/
def GoIface.isStr : GoIface → Bool
  | .s _ => true
  | _ => false

/-- The behaviour claim C1 asserts for the equal operators on a
string-typed literal: substring containment of the literal (with its
quote characters stripped) inside the actual string. -/
def claimStrEq (lit act : List Char) : Bool := goContains act (removeQuotes lit)

/-- Strip one layer of leading/trailing quote characters, as worded by
claim C5: at most one leading and one trailing `"`. -/
def stripOneQuoteLayer (s : List Char) : List Char :=
  let s1 := match s with | '"' :: r => r | r => r
  match s1.getLast? with
  | some '"' => s1.dropLast
  | _ => s1

/-- The behaviour claim C5 asserts for the `:` operator: lower-case
both sides, strip one layer of quotes from the actual string, and
test substring containment of the literal inside the actual value. -/
def claimContain (lit act : List Char) : Bool :=
  goContains (stripOneQuoteLayer (goToLower act)) (goToLower lit)

/-- The path-addressing behaviour claim C10 describes for `Value.Get`:
nil receiver, an object lacking the key, an array key that does not
parse as a decimal integer or is negative or is at least the length,
and a non-container node with keys remaining all give `nil`; otherwise
the walk continues to the addressed node. -/
def getSpec : Option GoVal → List (List Char) → Option GoVal
  | none, _ => none
  | some v, [] => some v
  | some v, key :: rest =>
    match v with
    | .object kvs =>
      match objectGet kvs key with
      | none => none
      | some v' => getSpec (some v') rest
    | .array elems =>
      match goAtoi key with
      | none => none
      | some n =>
        if n < 0 then none
        else if (elems.length : ℤ) ≤ n then none
        else getSpec (some (elems.getD n.toNat .vNull)) rest
    | _ => none

/-- The well-formed `\uXXXX` case of claim C7: exactly four hex digits
following the `u`, giving the decoded run and the remaining input;
`none` for a truncated or non-hex sequence. -/
def specUEscape : List Char → Option (List Char × List Char)
  | a :: b2 :: c2 :: d :: tl =>
    if isHexChar a && isHexChar b2 && isHexChar c2 && isHexChar d then
      some (goRuneToString
        (((hexVal a * 16 + hexVal b2) * 16 + hexVal c2) * 16 + hexVal d), tl)
    else none
  | _ => none

/-- A well-formed `\uXXXX` consumes its four digits. -/
theorem specUEscape_len {r : List Char} {p : List Char × List Char}
    (h : specUEscape r = some p) : p.2.length ≤ r.length := by
  cases r with
  | nil => simp [specUEscape] at h
  | cons a r1 =>
    cases r1 with
    | nil => simp [specUEscape] at h
    | cons b2 r2 =>
      cases r2 with
      | nil => simp [specUEscape] at h
      | cons c2 r3 =>
        cases r3 with
        | nil => simp [specUEscape] at h
        | cons d tl =>
          obtain ⟨p1, p2⟩ := p
          by_cases hx : (isHexChar a && isHexChar b2 && isHexChar c2 && isHexChar d) = true
          · simp only [specUEscape, hx, if_true, Option.some.injEq, Prod.mk.injEq] at h
            obtain ⟨h1, h2⟩ := h
            subst h2
            simp only [List.length_cons]
            omega
          · simp [specUEscape, hx] at h

/-- Character-by-character restatement of claim C7's decode rules
(with the surrogate amendment): every recognized two-character escape
is replaced by its decoded character; `\uXXXX` with four hex digits is
replaced by that code point when it is a Unicode scalar value and by
U+FFFD when it is a surrogate half; every malformed escape sequence is
copied through verbatim as a backslash followed by the escape
character; a final backslash followed by nothing is consumed without
output (as the source's separator scan does). -/
def unescapeSpec : List Char → List Char
  | [] => []
  | [c] => if c = '\\' then [] else [c]
  | c :: e :: rest' =>
    if c = '\\' then
      if e = '"' then '"' :: unescapeSpec rest'
      else if e = '\\' then '\\' :: unescapeSpec rest'
      else if e = '/' then '/' :: unescapeSpec rest'
      else if e = 'b' then Char.ofNat 8 :: unescapeSpec rest'
      else if e = 'f' then Char.ofNat 12 :: unescapeSpec rest'
      else if e = 'n' then Char.ofNat 10 :: unescapeSpec rest'
      else if e = 'r' then Char.ofNat 13 :: unescapeSpec rest'
      else if e = 't' then Char.ofNat 9 :: unescapeSpec rest'
      else if e = 'u' then
        match h : specUEscape rest' with
        | some p => p.1 ++ unescapeSpec p.2
        | none => '\\' :: 'u' :: unescapeSpec rest'
      else '\\' :: e :: unescapeSpec rest'
    else c :: unescapeSpec (e :: rest')
termination_by l => l.length
decreasing_by
  · simp only [List.length_cons]; omega
  · simp only [List.length_cons]; omega
  · simp only [List.length_cons]; omega
  · simp only [List.length_cons]; omega
  · simp only [List.length_cons]; omega
  · simp only [List.length_cons]; omega
  · simp only [List.length_cons]; omega
  · simp only [List.length_cons]; omega
  · have := specUEscape_len h
    simp only [List.length_cons]
    omega
  · simp only [List.length_cons]; omega
  · simp only [List.length_cons]; omega
  · simp only [List.length_cons]; omega

/-! ## Helper lemmas -/

/-- `findIdx?` with start index `i` is the plain `findIdx?` shifted. -/
theorem findIdx?_start_shift (p : Char → Bool) (xs : List Char) (i : Nat) :
    List.findIdx? p xs i = (List.findIdx? p xs).map (· + i) := by
  induction xs generalizing i with
  | nil => simp [List.findIdx?_nil]
  | cons x t ih =>
    rw [List.findIdx?_cons, List.findIdx?_cons]
    by_cases hp : p x = true
    · simp [hp]
    · simp only [hp, if_false, ih (i + 1), ih 1, Option.map_map]
      cases List.findIdx? p t with
      | none => rfl
      | some m => simp [Function.comp]; omega

/-- A found index splits the list into its `takeWhile`/`dropWhile`
parts for the complementary predicate. -/
theorem findIdx?_take_drop {q : Char → Bool} {s : List Char} {n : Nat}
    (h : List.findIdx? (fun c => !q c) s = some n) :
    s.take n = s.takeWhile q ∧ s.drop n = s.dropWhile q := by
  induction s generalizing n with
  | nil => simp [List.findIdx?_nil] at h
  | cons c t ih =>
    rw [List.findIdx?_cons] at h
    by_cases hq : q c = true
    · have hnq : (!q c) = false := by simp [hq]
      rw [hnq] at h
      simp only [Bool.false_eq_true, if_false] at h
      rw [findIdx?_start_shift] at h
      cases hf : List.findIdx? (fun c => !q c) t with
      | none => rw [hf] at h; exact absurd h (by simp)
      | some m =>
        rw [hf] at h
        have hn : n = m + 1 := by
          have := h
          simp only [Option.map] at this
          cases this
          rfl
        subst hn
        obtain ⟨h1, h2⟩ := ih hf
        constructor
        · simp [List.take_succ_cons, List.takeWhile_cons, hq, h1]
        · simp [List.drop_succ_cons, List.dropWhile_cons, hq, h2]
    · have hnq : (!q c) = true := by simp [hq]
      rw [hnq] at h
      simp only [if_true] at h
      have hn : n = 0 := by cases h; rfl
      subst hn
      constructor
      · simp [List.takeWhile_cons, hq]
      · simp [List.dropWhile_cons, hq]

/-- With no index found, the whole list satisfies the complementary
predicate. -/
theorem findIdx?_none_clean {p : Char → Bool} {s : List Char}
    (h : List.findIdx? p s = none) : ∀ c ∈ s, p c = false :=
  List.findIdx?_eq_none_iff.mp h

/-- Decomposition at the first backslash. -/
theorem idxBackslash_decomp {s : List Char} {n : Nat}
    (h : idxBackslash s = some n) :
    (∀ c ∈ s.take n, ¬(c = '\\')) ∧ s = s.take n ++ '\\' :: s.drop (n + 1) := by
  unfold idxBackslash at h
  obtain ⟨hlt, hfi⟩ := List.findIdx?_eq_some_iff_findIdx_eq.mp h
  constructor
  · intro c hc
    obtain ⟨i, hi, hgi⟩ := List.getElem_of_mem hc
    have hilt : i < n := by
      have := hi
      simp only [List.length_take] at this
      omega
    have hne := @List.not_of_lt_findIdx _ (fun c => c = '\\') s i (by omega)
    rw [List.getElem_take] at hgi
    rw [hgi] at hne
    simpa using hne
  · conv_lhs => rw [← List.take_append_drop n s]
    congr 1
    have hdrop : s.drop n = s[n] :: s.drop (n + 1) :=
      List.drop_eq_getElem_cons hlt
    have hsn : s[n] = '\\' := by
      have := @List.findIdx_getElem _ (fun c => c = '\\') s (by omega)
      simp only [hfi] at this
      simpa using this
    rw [hdrop, hsn]

/-- `unescapeSpec` is the identity on backslash-free input. -/
theorem unescapeSpec_clean {s : List Char} (h : ∀ c ∈ s, ¬(c = '\\')) :
    unescapeSpec s = s := by
  induction s with
  | nil => rw [unescapeSpec]
  | cons c t ih =>
    have hc : ¬(c = '\\') := h c (List.mem_cons_self c t)
    have ht : ∀ x ∈ t, ¬(x = '\\') := fun x hx => h x (List.mem_cons_of_mem c hx)
    cases t with
    | nil => simp [unescapeSpec, hc]
    | cons e t' =>
      rw [unescapeSpec]
      simp only [hc, if_false]
      rw [ih ht]

/-- `unescapeSpec` passes a backslash-free prefix through unchanged. -/
theorem unescapeSpec_append_clean {pre rest : List Char}
    (h : ∀ c ∈ pre, ¬(c = '\\')) :
    unescapeSpec (pre ++ rest) = pre ++ unescapeSpec rest := by
  induction pre with
  | nil => simp
  | cons c t ih =>
    have hc : ¬(c = '\\') := h c (List.mem_cons_self c t)
    have ht : ∀ x ∈ t, ¬(x = '\\') := fun x hx => h x (List.mem_cons_of_mem c hx)
    cases hte : t ++ rest with
    | nil =>
      have : t = [] ∧ rest = [] := by
        constructor
        · cases t with
          | nil => rfl
          | cons a b => simp at hte
        · cases t with
          | nil => simpa using hte
          | cons a b => simp at hte
      obtain ⟨h1, h2⟩ := this
      subst h1; subst h2
      simp [unescapeSpec, hc]
    | cons y ys =>
      rw [List.cons_append, hte, unescapeSpec]
      simp only [hc, if_false]
      rw [← hte, ih ht, List.cons_append]

/-- The source-side and claim-side `\uXXXX` handlers coincide. -/
theorem uEscStep_eq_specU (r : List Char) : uEscStep r = specUEscape r := by
  cases r with
  | nil => simp [uEscStep, specUEscape]
  | cons a r1 =>
    cases r1 with
    | nil => simp [uEscStep, specUEscape]
    | cons b2 r2 =>
      cases r2 with
      | nil => simp [uEscStep, specUEscape]
      | cons c2 r3 =>
        cases r3 with
        | nil => simp [uEscStep, specUEscape]
        | cons d tl => simp [uEscStep, specUEscape]

/-- One escape step agrees with the claim-worded decode table. -/
theorem spec_step (e : Char) (rest' : List Char) :
    unescapeSpec ('\\' :: e :: rest') =
      (escStep e rest').1 ++ unescapeSpec (escStep e rest').2 := by
  by_cases h9 : e = 'u'
  · subst h9
    rw [unescapeSpec]
    unfold escStep
    simp only [uEscStep_eq_specU, if_pos rfl]
    norm_num
    cases hsp : specUEscape rest' with
    | none => simp
    | some p => simp
  · rw [unescapeSpec]
    unfold escStep
    by_cases h1 : e = '"'
    · simp [h1]
    · by_cases h2 : e = '\\'
      · simp [h1, h2]
      · by_cases h3 : e = '/'
        · simp [h1, h2, h3]
        · by_cases h4 : e = 'b'
          · simp [h1, h2, h3, h4]
          · by_cases h5 : e = 'f'
            · simp [h1, h2, h3, h4, h5]
            · by_cases h6 : e = 'n'
              · simp [h1, h2, h3, h4, h5, h6]
              · by_cases h7 : e = 'r'
                · simp [h1, h2, h3, h4, h5, h6, h7]
                · by_cases h8 : e = 't'
                  · simp [h1, h2, h3, h4, h5, h6, h7, h8]
                  · simp [h1, h2, h3, h4, h5, h6, h7, h8, h9]

/-- The chunked slow-path loop agrees with the claim-worded decoder on
input positioned just after a backslash. -/
theorem unescLoop_eq_spec (t : List Char) :
    unescLoop t = unescapeSpec ('\\' :: t) := by
  suffices h : ∀ L (t : List Char), t.length = L →
      unescLoop t = unescapeSpec ('\\' :: t) from h _ t rfl
  intro L
  induction L using Nat.strong_induction_on with
  | _ L ih =>
  intro t hL
  cases t with
  | nil =>
    rw [unescLoop, unescapeSpec]
    simp
  | cons e rest' =>
    rw [unescLoop, spec_step]
    split
    · rename_i hidx
      have hcl : ∀ c ∈ (escStep e rest').2, ¬(c = '\\') := by
        intro c hc
        simpa using findIdx?_none_clean hidx c hc
      rw [unescapeSpec_clean hcl]
    · rename_i n hidx
      obtain ⟨hclean, hdecomp⟩ := idxBackslash_decomp hidx
      have hlen : ((escStep e rest').2.drop (n + 1)).length < L := by
        have := escStep_len e rest'
        rw [← hL]
        simp only [List.length_drop, List.length_cons]
        omega
      have ih' := ih _ hlen ((escStep e rest').2.drop (n + 1)) rfl
      conv_rhs => rw [hdecomp]
      rw [unescapeSpec_append_clean hclean, ih']
      simp [List.append_assoc]

/-- `goStrLt` is irreflexive. -/
theorem goStrLt_irrefl (v : List Char) : goStrLt v v = false := by
  induction v with
  | nil => rfl
  | cons c t ih => simp [goStrLt, ih]

/-! ## Claim theorems -/

/-- Claim C1 counterexample: on the string-typed literal `b` and the
actual string `ab`, the strict equal operator `===` (`checkEq`)
returns `false` while the substring-containment semantics the claim
asserts for it returns `true`; the claim is false as stated. -/
theorem claim_C1_counterexample :
    checkEq (.s ['b']) (.s ['a', 'b']) ≠ claimStrEq ['b'] ['a', 'b'] := by
  decide

/-- Claim C1 as amended: for a string-typed filter literal, only the
loose equal operator `==` tests substring containment of the literal
(with all its quote characters removed) inside the actual string; the
strict equal operator `===` tests exact equality, and both not-equal
operators `!==` and `!=` test exact inequality — the negation of
exact equality, not of containment. -/
theorem claim_C1_amended (l c : List Char) :
    checkPartialEq (.s l) (.s c) = goContains c (removeQuotes l) ∧
    checkEq (.s l) (.s c) = decide (c = l) ∧
    checkDiff (.s l) (.s c) = decide (c ≠ l) ∧
    checkPartialDiff (.s l) (.s c) = decide (c ≠ l) :=
  ⟨rfl, rfl, rfl, rfl⟩

/-- Claim C2: a query that fails the outer `name(filters){children}`
shape does not produce a non-nil compile error — `parseQuery` indexes
the nil regex-match slice and faults (modelled `none`), as the
concrete query `x` shows; moreover every return that does happen
carries a `nil` error, so `ParseQuery` can never surface a non-nil
error value. -/
theorem claim_C2_parse_query :
    cmdMatch ['x'] = none ∧
    (∀ fuel cmd, cmdMatch cmd = none → parseQueryFuel fuel cmd = none) ∧
    (∀ fuel, ParseQueryFuel fuel ['x'] = none) ∧
    (∀ fuel cmd out, parseQueryFuel fuel cmd = some out → out.2.2 = none) := by
  have hx : cmdMatch ['x'] = none := by decide
  have hfault : ∀ fuel cmd, cmdMatch cmd = none → parseQueryFuel fuel cmd = none := by
    intro fuel cmd h
    cases fuel with
    | zero => simp [parseQueryFuel]
    | succ f => simp [parseQueryFuel, h]
  refine ⟨hx, hfault, ?_, ?_⟩
  · intro fuel
    unfold ParseQueryFuel
    rw [hfault fuel ['x'] hx]
  · intro fuel cmd out h
    cases fuel with
    | zero => simp [parseQueryFuel] at h
    | succ f =>
      rw [parseQueryFuel] at h
      cases hc : cmdMatch cmd with
      | none => rw [hc] at h; simp at h
      | some trip =>
        obtain ⟨name, filt, body⟩ := trip
        rw [hc] at h
        simp only [] at h
        cases ha : addChildren f (if 0 < body.length then splitComa body else [])
            (GoLevel.mk (if 0 < filt.length then newFilter filt else []) [] []) with
        | none => rw [ha] at h; simp at h
        | some lvl =>
          rw [ha] at h
          simp only [Option.some.injEq] at h
          rw [← h]

/-- Claim C2 witness: the theorem applied at the concrete shape-failing
query `x` (hypothesis discharged by evaluation) and at the concrete
well-shaped query `a{b}`, whose successful compilation carries a nil
error. -/
theorem claim_C2_witness :
    parseQueryFuel 3 ['x'] = none ∧
    (∃ out, parseQueryFuel 2 ['a', '{', 'b', '}'] = some out ∧ out.2.2 = none) := by
  have hc : cmdMatch ['a', '{', 'b', '}'] = some (['a'], [], ['b']) := by decide
  have hs : splitComa ['b'] = [['b']] := by decide
  have heval : parseQueryFuel 2 ['a', '{', 'b', '}'] =
      some (GoLevel.mk [] [] [['b']], ['a'], none) := by
    simp [parseQueryFuel, hc, hs, addChildren, GoLevel.filters, GoLevel.next,
      GoLevel.retrieve]
  exact ⟨claim_C2_parse_query.2.1 3 ['x'] (by decide),
    ⟨(GoLevel.mk [] [] [['b']], ['a'], none), heval,
      claim_C2_parse_query.2.2.2 2 _ _ heval⟩⟩

/-- Claim C3: `Keep` on the object `{"a":1}` with the selection `b`
(a key absent from the object) returns a `nil` result together with a
`nil` error — the `return nil, err` in the absent-key branch of the
source executes with `err` still `nil`, so no non-nil error reaches
the caller, contradicting the claim (and the spec's stated
hard-failure intent). -/
theorem claim_C3_keep_absent_key :
    keepFuel 2 (some (GoVal.object [(['a'], GoVal.rawNumber ['1'])])) ['b'] =
      some (none, none) := by
  simp [keepFuel, keepStays, keepConts, GetKeys, splitComa, splitComaAux,
    objectGet, goType]

/-- Claim C4: for integer and float filter literals the strict
operators evaluate exactly as the loose ones on every actual value,
and an integer literal compares equal to a float actual value (and
vice versa) by widening the integer to a float before the equality
test. -/
theorem claim_C4_numeric_coercion (n : ℤ) (q : ℚ) (x : GoIface) :
    checkEq (.i n) x = checkPartialEq (.i n) x ∧
    checkEq (.f q) x = checkPartialEq (.f q) x ∧
    checkDiff (.i n) x = checkPartialDiff (.i n) x ∧
    checkDiff (.f q) x = checkPartialDiff (.f q) x ∧
    checkEq (.i n) (.f q) = decide (q = (n : ℚ)) ∧
    checkEq (.f q) (.i n) = decide ((n : ℚ) = q) := by
  cases x <;>
    simp [checkEq, checkPartialEq, checkDiff, checkPartialDiff]

/-- Claim C5 counterexample: at the string literal `b` and actual
string `abc` the `:` operator (`checkContain`) returns `false`
although the semantics the claim describes (strip one quote layer
from the actual side, then containment of the literal in the actual
value) returns `true`: the source strips quotes from the literal side
and tests containment of the actual value inside the literal. -/
theorem claim_C5_counterexample :
    checkContain (.s ['b']) (.s ['a', 'b', 'c']) ≠ claimContain ['b'] ['a', 'b', 'c'] := by
  decide

/-- Claim C5 as amended: `:` and `!:` lower-case both sides, strip
every leading and trailing quote character from the literal side, and
test containment of the actual string inside the stripped literal
(negated for `!:`); when either side is not a string both operators
evaluate to `false`. -/
theorem claim_C5_amended (l c : List Char) (x y : GoIface)
    (h : x.isStr = false ∨ y.isStr = false) :
    checkContain (.s l) (.s c) =
      goContains (trimRightQuotes (trimLeftQuotes (goToLower l))) (goToLower c) ∧
    checkNotContain (.s l) (.s c) =
      (!goContains (trimRightQuotes (trimLeftQuotes (goToLower l))) (goToLower c)) ∧
    checkContain x y = false ∧
    checkNotContain x y = false := by
  refine ⟨rfl, rfl, ?_, ?_⟩ <;>
    cases x <;> cases y <;> simp_all [checkContain, checkNotContain, GoIface.isStr]

/-- Claim C5 witness: the amended theorem applied at the literal
`"AB"`, the actual string `xaby`, and the non-string pair
`(1, true)`, each hypothesis discharged by evaluation. -/
theorem claim_C5_witness :
    checkContain (.s ['"', 'A', 'B', '"']) (.s ['a', 'b']) = true ∧
    checkContain (.i 1) (.b true) = false := by
  have h := claim_C5_amended ['"', 'A', 'B', '"'] ['a', 'b'] (.i 1) (.b true)
    (Or.inl rfl)
  refine ⟨?_, h.2.2.1⟩
  rw [h.1]
  decide

/-- Claim C6: the first type inspection advances a `Raw*` tag to its
decoded tag exactly once — the returned tag is never a `Raw*` tag, the
node after the call stores exactly the returned tag, a second
inspection returns the same tag and the same node unchanged (so the
decode transform cannot run again), and the two raw constructors
decode to their unescaped/parsed forms. -/
theorem claim_C6_decode_once (v : GoVal) (sp : List Char) :
    goType ((goType v).2) = ((goType v).1, (goType v).2) ∧
    (goType v).1 ≠ .tRawString ∧
    (goType v).1 ≠ .tRawNumber ∧
    storedTag ((goType v).2) = (goType v).1 ∧
    goType (.rawString sp) = (.tString, .vString (unescapeStringBestEffort sp)) ∧
    goType (.rawNumber sp) =
      (.tNumber, .number (match goParseFloat sp with | none => 0 | some q => q)) := by
  refine ⟨?_, ?_, ?_, ?_, rfl, rfl⟩ <;> cases v <;> simp [goType, storedTag]

/-- Claim C7 counterexample: the escape `\uD800` is four hex digits,
but its code point is a UTF-16 surrogate half, and Go's
`string(rune(0xD800))` conversion substitutes U+FFFD — the decoded
text is the replacement character, not "that code point" as the
claim states. -/
theorem claim_C7_counterexample :
    (unescapeStringBestEffort ['\\', 'u', 'D', '8', '0', '0']).map Char.toNat ≠
        [0xD800] ∧
    (unescapeStringBestEffort ['\\', 'u', 'D', '8', '0', '0']).map Char.toNat =
        [0xFFFD] := by
  have hu : uEscStep ['D', '8', '0', '0'] = some ([Char.ofNat 0xFFFD], []) := by
    decide
  have he : escStep 'u' ['D', '8', '0', '0'] = ([Char.ofNat 0xFFFD], []) := by
    simp [escStep, hu]
  have hidx : idxBackslash ['\\', 'u', 'D', '8', '0', '0'] = some 0 := by decide
  have hloop : unescLoop ['u', 'D', '8', '0', '0'] = [Char.ofNat 0xFFFD] := by
    rw [unescLoop]
    simp [he, idxBackslash]
  have hmain : unescapeStringBestEffort ['\\', 'u', 'D', '8', '0', '0'] =
      [Char.ofNat 0xFFFD] := by
    unfold unescapeStringBestEffort
    rw [hidx]
    simp [hloop]
  constructor
  · rw [hmain]; decide
  · rw [hmain]; decide

/-- Claim C7 as amended: unescaping replaces each recognized escape
sequence with its decoded character and `\uXXXX` (exactly four hex
digits) with that code point when it is a Unicode scalar value (a
surrogate half 0xD800–0xDFFF decodes to the replacement character
U+FFFD instead), copies every malformed escape sequence through
verbatim, and never reports an error; in particular `\q` decodes to
the two-character text `\q`. -/
theorem claim_C7_amended (s : List Char) :
    unescapeStringBestEffort s = unescapeSpec s ∧
    unescapeStringBestEffort ['\\', 'q'] = ['\\', 'q'] := by
  have hgen : ∀ t : List Char, unescapeStringBestEffort t = unescapeSpec t := by
    intro t
    unfold unescapeStringBestEffort
    split
    · rename_i hidx
      have hcl : ∀ c ∈ t, ¬(c = '\\') := fun c hc => by
        simpa using findIdx?_none_clean hidx c hc
      rw [unescapeSpec_clean hcl]
    · rename_i n hidx
      obtain ⟨hclean, hdecomp⟩ := idxBackslash_decomp hidx
      conv_rhs => rw [hdecomp]
      rw [unescapeSpec_append_clean hclean, unescLoop_eq_spec]
  refine ⟨hgen s, (hgen ['\\', 'q']).trans ?_⟩
  rw [unescapeSpec]
  simp [unescapeSpec]

/-- Claim C8: number lexing accepts any maximal nonempty run of the
characters `0-9 - . e E +` without validating number grammar; a run
of zero length at the start position (a nonempty input whose first
character is outside the class) is a hard parse error; and any
lexically accepted but malformed run — `--1` and `1.2.3` among them —
silently decodes to the number 0 at first type inspection instead of
surfacing an error. -/
theorem claim_C8_number_lexing (s : List Char) (hne : s ≠ []) :
    (isNumChar (s.headD ' ') = false →
      parseRawNumber s = ([], s, some "unexpected char")) ∧
    (isNumChar (s.headD ' ') = true →
      parseRawNumber s = (s.takeWhile isNumChar, s.dropWhile isNumChar, none)) ∧
    (∀ t, goParseFloat t = none →
      goType (.rawNumber t) = (.tNumber, .number 0)) ∧
    goParseFloat ['-', '-', '1'] = none ∧
    goParseFloat ['1', '.', '2', '.', '3'] = none := by
  obtain ⟨c, t, rfl⟩ : ∃ c t, s = c :: t := by
    cases s with
    | nil => exact absurd rfl hne
    | cons c t => exact ⟨c, t, rfl⟩
  refine ⟨?_, ?_, ?_, by decide, by decide⟩
  · intro h
    simp only [List.headD_cons] at h
    unfold parseRawNumber
    rw [List.findIdx?_cons]
    simp [h]
  · intro h
    simp only [List.headD_cons] at h
    unfold parseRawNumber
    cases hf : List.findIdx? (fun c => !isNumChar c) (c :: t) with
    | none =>
      have hall := findIdx?_none_clean hf
      have htake : (c :: t).takeWhile isNumChar = c :: t :=
        List.takeWhile_eq_self_iff.mpr fun x hx => by
          have := hall x hx
          simpa using this
      have hdrop : (c :: t).dropWhile isNumChar = [] :=
        List.dropWhile_eq_nil_iff.mpr fun x hx => by
          have := hall x hx
          simpa using this
      rw [htake, hdrop]
    | some i =>
      obtain ⟨htake, hdrop⟩ := findIdx?_take_drop hf
      have hi : i ≠ 0 := by
        intro h0
        subst h0
        have : (c :: t).takeWhile isNumChar = [] := by
          rw [← htake, List.take_zero]
        simp [List.takeWhile_cons, h] at this
      simp only [hi, if_false]
      rw [htake, hdrop]
  · intro u hu
    simp [goType, hu]

/-- Claim C8 witness: the theorem applied at the lexically accepted
malformed run `1.2.3` (whole-input lexeme, decoding to zero), at the
malformed run `--1`, and at the input `x`, whose zero-length run is a
hard error. -/
theorem claim_C8_witness :
    parseRawNumber ['1', '.', '2', '.', '3'] =
      (['1', '.', '2', '.', '3'], [], none) ∧
    goType (.rawNumber ['-', '-', '1']) = (.tNumber, .number 0) ∧
    parseRawNumber ['x'] = ([], ['x'], some "unexpected char") := by
  have h1 := claim_C8_number_lexing ['1', '.', '2', '.', '3'] (by decide)
  have h2 := claim_C8_number_lexing ['x'] (by decide)
  refine ⟨?_, ?_, ?_⟩
  · rw [h1.2.1 (by decide)]
    decide
  · exact h1.2.2.1 ['-', '-', '1'] (by decide)
  · exact h2.1 (by decide)

/-- Claim C9: on strings, both `>=` and `<=` hold exactly when the
actual string is strictly greater than the literal in lexical order —
`checkSupEq` compares with strict `>` and `checkInfEq` tests
`literal < actual` — so two equal strings satisfy neither operator. -/
theorem claim_C9_string_ordering (v c : List Char) :
    checkSupEq (.s v) (.s c) = goStrLt v c ∧
    checkInfEq (.s v) (.s c) = goStrLt v c ∧
    checkSupEq (.s v) (.s v) = false ∧
    checkInfEq (.s v) (.s v) = false := by
  refine ⟨rfl, rfl, ?_, ?_⟩ <;> simp [checkSupEq, checkInfEq, goStrLt_irrefl]

/-- Claim C10: `Value.Get` is total — it matches, on every receiver
and key path, the claim's addressing description (nil receiver, a
missing object key, an array key that does not parse as a decimal
integer or is negative or is at least the array length, and a
non-container node with keys remaining all give `nil`; otherwise the
addressed node) — and walking a concatenated path equals walking its
two halves in sequence. -/
theorem claim_C10_get_total (ov : Option GoVal) (ks ks2 : List (List Char)) :
    goGet ov ks = getSpec ov ks ∧
    goGet ov (ks ++ ks2) = goGet (goGet ov ks) ks2 := by
  constructor
  · induction ks generalizing ov with
    | nil => cases ov <;> rfl
    | cons k rest ih =>
      cases ov with
      | none => rfl
      | some v =>
        cases v with
        | object kvs =>
          simp only [goGet, getSpec]
          cases objectGet kvs k with
          | none => rfl
          | some v' => exact ih (some v')
        | array elems =>
          simp only [goGet, getSpec]
          cases goAtoi k with
          | none => rfl
          | some n =>
            by_cases h1 : n < 0
            · simp [h1]
            · by_cases h2 : (elems.length : ℤ) ≤ n
              · simp [h1, h2, ge_iff_le]
              · simp [h1, h2, ge_iff_le, ih]
        | vNull => rfl
        | vTrue => rfl
        | vFalse => rfl
        | rawString sp => rfl
        | vString sp => rfl
        | rawNumber sp => rfl
        | number q => rfl
  · induction ks generalizing ov with
    | nil => cases ov <;> simp [goGet]
    | cons k rest ih =>
      cases ov with
      | none => simp [goGet]
      | some v =>
        cases v with
        | object kvs =>
          simp only [List.cons_append, goGet]
          cases objectGet kvs k with
          | none => simp [goGet]
          | some v' => exact ih (some v')
        | array elems =>
          simp only [List.cons_append, goGet]
          cases goAtoi k with
          | none => simp [goGet]
          | some n =>
            by_cases h1 : n < 0 ∨ n ≥ (elems.length : ℤ)
            · simp [h1, goGet]
            · simp [h1, ih]
        | vNull => simp [goGet]
        | vTrue => simp [goGet]
        | vFalse => simp [goGet]
        | rawString sp => simp [goGet]
        | vString sp => simp [goGet]
        | rawNumber sp => simp [goGet]
        | number q => simp [goGet]
